import Mathlib

/-!
Shallow embedding of the `kvdb` key-value store (`src/db.go`).

Byte strings are modelled as `List Nat`; `bytes.Compare` becomes `bytesCmp`
(lexicographic, a proper prefix is smaller).  The input stream consumed by
`preprocess` is modelled as the list of its newline-terminated lines, each
line given without its trailing `'\n'` (this is exactly what
`bufio.Reader.ReadBytes('\n')` hands to the loop body for a well-formed,
newline-terminated file; a final unterminated line would be discarded by the
Go code together with its `io.EOF`, and such files are outside this model).

Go's `sort.Sort` (an unstable comparison sort using `Less`, i.e. strict
byte-wise `<`) is modelled by `List.insertionSort` with the corresponding
non-strict relation: both produce a permutation of the input that is sorted
by the non-strict relation, and all properties proved here depend only on
that (for inputs with pairwise distinct keys the sorted permutation is
moreover unique, so the models agree exactly).

The `gob` serializer is treated abstractly (the specification declares the
on-disk encoding an implementation choice): build and lookup definitions
take an encoder `enc` / decoder `dec` as parameters, and concrete
evaluations instantiate them with the executable stand-in
`encodeKVs` / `decodeKVs` defined below.

Go runtime panics (out-of-range slice indexing) are modelled explicitly:
a function whose Go original can panic returns an `Option` (`none` = panic)
or a result type with a dedicated `panic` constructor.
-/

namespace kvdb

/-- Byte strings, as lists of naturals. -/
abbrev Bytes := List Nat

/-- `bytes.Compare`: lexicographic comparison, a proper prefix is smaller. -/
def bytesCmp : Bytes → Bytes → Ordering
  | [], [] => .eq
  | [], _ :: _ => .lt
  | _ :: _, [] => .gt
  | a :: as, b :: bs =>
    if a < b then .lt else if b < a then .gt else bytesCmp as bs

/-- A key/value record (`kvPair` in `db.go`). -/
structure kvPair where
  Key : Bytes
  Value : Bytes
deriving DecidableEq, Repr

instance : Inhabited kvPair := ⟨⟨[], []⟩⟩

/-- Metadata of one chunk (`chunkMeta` in `db.go`).  The `Chunk` field is the
`*chunk` pointer (`loadedSegment` in the specification); pointers into the
chunk heap are modelled as indices, `none` modelling `nil`. -/
structure chunkMeta where
  ID : Nat
  StartKey : Bytes
  StartLoc : Nat
  Len : Nat
  Chunk : Option Nat
deriving DecidableEq, Repr

instance : Inhabited chunkMeta := ⟨⟨0, [], 0, 0, none⟩⟩

/-- A decoded chunk object on the heap (`chunk` in `db.go`).  `Meta` is the
back-pointer `chunk.Meta` (an index into `metas`, `none` modelling `nil`). -/
structure chunkObj where
  KVs : List kvPair
  Meta : Option Nat
deriving DecidableEq, Repr

/-- `MaxChunkSize` from `db.go`. -/
def MaxChunkSize : Nat := 10

/-- `MaxChunks` from `db.go` (the LRU capacity handed to `lru.New`). -/
def MaxChunks : Nat := 30

/-- `bytes.Split(b, []byte(" "))`: split on every space byte (32), keeping
empty fields; the empty input yields one empty field. -/
def splitByte (sep : Nat) : Bytes → List Bytes
  | [] => [[]]
  | c :: rest =>
    match splitByte sep rest with
    | f :: fs => if c = sep then [] :: f :: fs else (c :: f) :: fs
    | [] => if c = sep then [[], []] else [[c]]

/-- The record a well-formed input line denotes: fields 2 and 4 of the
space-split line (`res[1]` and `res[3]` in `parseOneChunk`). -/
def recordOf (l : Bytes) : kvPair :=
  ⟨(splitByte 32 l).getD 1 [], (splitByte 32 l).getD 3 []⟩

/-- The error built in `parseOneChunk`: "file contains `fields` fields at
line `ln`" (the line number is counted from the start of the current chunk). -/
structure ParseErr where
  fields : Nat
  ln : Nat
deriving DecidableEq, Repr

/-- `parseOneChunk` from `db.go`, as a function of the remaining lines.
Returns the accumulated records, whether the `io.EOF` path was taken, and
the lines left unconsumed.  The Go loop reads a line, trims it, returns the
chunk so far on `io.EOF`, errors if the line has fewer than four
space-separated fields, otherwise appends `(res[1], res[3])` and stops once
the summed key/value length reaches `MaxChunkSize`. -/
def parseOneChunk : List Bytes → List kvPair → Nat → Nat →
    Except ParseErr (List kvPair × Bool × List Bytes)
  | [], acc, _, _ => .ok (acc, true, [])
  | l :: ls, acc, size, ln =>
    let res := splitByte 32 l
    if res.length < 4 then
      .error ⟨res.length, ln + 1⟩
    else
      let p : kvPair := ⟨res.getD 1 [], res.getD 3 []⟩
      let size' := size + p.Key.length + p.Value.length
      if MaxChunkSize ≤ size' then .ok (acc ++ [p], false, ls)
      else parseOneChunk ls (acc ++ [p]) size' (ln + 1)

/-- Strict byte-string order (`bytes.Compare(a, b) < 0`). -/
def bytLt (a b : Bytes) : Prop := bytesCmp a b = .lt

instance : DecidableRel bytLt := fun a b =>
  inferInstanceAs (Decidable (bytesCmp a b = .lt))

/-- The sort relation of `chunk.Less` (strict byte-wise `<`), in its
non-strict form used to model `sort.Sort` on a chunk's records. -/
def keyLe (p q : kvPair) : Prop := bytesCmp p.Key q.Key ≠ .gt

instance : DecidableRel keyLe := fun p q =>
  inferInstanceAs (Decidable (bytesCmp p.Key q.Key ≠ .gt))

/-- The sort relation of `chunkMetas.Less` (strict `<` on `StartKey`), in
its non-strict form used to model `sort.Sort` on the metadata index. -/
def metaLe (m n : chunkMeta) : Prop := bytesCmp m.StartKey n.StartKey ≠ .gt

instance : DecidableRel metaLe := fun m n =>
  inferInstanceAs (Decidable (bytesCmp m.StartKey n.StartKey ≠ .gt))

/-- `sort.Sort(tmpchunk)`: sort a chunk's records ascending by key. -/
def sortChunk (recs : List kvPair) : List kvPair := List.insertionSort keyLe recs

/-- `sort.Sort(db.metas)`: sort the metadata index ascending by `StartKey`. -/
def sortMetas (metas : List chunkMeta) : List chunkMeta :=
  List.insertionSort metaLe metas

/-- `dumpOneChunk` from `db.go`: gob-encode the chunk onto the file, then
build its metadata.  The encode happens first; on an empty chunk the access
`tmpchunk.KVs[0].Key` then panics (modelled as `none`), with the encoded
bytes already appended. -/
def dumpOneChunk (enc : List kvPair → Bytes) (c : List kvPair) (file : Bytes)
    (lastLoc id : Nat) : Bytes × Option (chunkMeta × Nat) :=
  let file' := file ++ enc c
  let offset := file'.length
  match c with
  | [] => (file', none)
  | p :: _ =>
    (file', some (⟨id, p.Key, lastLoc, offset - lastLoc, none⟩, offset))

/-- Outcome of the build phase (`preprocess`).  `panic` models a Go runtime
panic; it is unreachable for the fuel `preprocess` supplies. -/
inductive BuildResult where
  | err (e : ParseErr)
  | panic
  | ok (file : Bytes) (segs : List (List kvPair)) (metas : List chunkMeta)
deriving DecidableEq, Repr

/-- The loop of `preprocess` from `db.go`: parse a chunk; if non-empty, sort
it, dump it and record its metadata; stop at `io.EOF`.  `segs` collects the
written (sorted) segments in write order, `metas` their metadata in write
order (`preprocess` sorts the metadata afterwards).  `fuel` bounds the
number of iterations; `preprocess` supplies enough for the fuel branch to be
unreachable. -/
def preprocessLoop (enc : List kvPair → Bytes) :
    Nat → List Bytes → Bytes → Nat → Nat → BuildResult
  | 0, _, _, _, _ => .panic
  | fuel + 1, lines, file, lastLoc, id =>
    match parseOneChunk lines [] 0 0 with
    | .error e => .err e
    | .ok (recs, eof, rest) =>
      if recs.length > 0 then
        let sorted := sortChunk recs
        match dumpOneChunk enc sorted file lastLoc id with
        | (file', some (meta, loc')) =>
          if eof then .ok file' [sorted] [meta]
          else
            match preprocessLoop enc fuel rest file' loc' (id + 1) with
            | .ok file'' segs metas => .ok file'' (sorted :: segs) (meta :: metas)
            | r => r
        | (_, none) => .panic
      else
        if eof then .ok file [] []
        else preprocessLoop enc fuel rest file lastLoc (id + 1)

/-- `preprocess` from `db.go`: run the chunking loop over the whole input,
then sort the metadata index by `StartKey`. -/
def preprocess (enc : List kvPair → Bytes) (lines : List Bytes) : BuildResult :=
  match preprocessLoop enc (lines.length + 1) lines [] 0 0 with
  | .ok file segs metas => .ok file segs (sortMetas metas)
  | r => r

/-- The data file of a successful build (`[]` otherwise). -/
def BuildResult.fileD : BuildResult → Bytes
  | .ok file _ _ => file
  | _ => []

/-- The written segments of a successful build (`[]` otherwise). -/
def BuildResult.segsD : BuildResult → List (List kvPair)
  | .ok _ segs _ => segs
  | _ => []

/-- The metadata index of a successful build (`[]` otherwise). -/
def BuildResult.metasD : BuildResult → List chunkMeta
  | .ok _ _ metas => metas
  | _ => []

/-- Whether the build failed with a parse error. -/
def BuildResult.isErr : BuildResult → Bool
  | .err _ => true
  | _ => false

/-- Whether the build succeeded. -/
def BuildResult.isOk : BuildResult → Bool
  | .ok _ _ _ => true
  | _ => false

/-- The loop of `lowerSearchMeta` from `db.go` (a textbook lower-bound
binary search over `StartKey`).  `fuel` bounds the iteration count;
`lowerSearchMeta` supplies `leng` itself, which suffices because `leng`
strictly decreases each iteration, and on fuel exhaustion the current
`first` is returned (the loop-exit value). -/
def lowerLoop (metas : List chunkMeta) (key : Bytes) :
    Nat → Nat → Nat → Nat
  | 0, first, _ => first
  | fuel + 1, first, leng =>
    if leng = 0 then first
    else
      let half := leng / 2
      let middle := first + half
      if bytesCmp ((metas.getD middle default).StartKey) key = .lt then
        lowerLoop metas key fuel (middle + 1) (leng - half - 1)
      else
        lowerLoop metas key fuel first half

/-- `lowerSearchMeta` from `db.go`: run the lower-bound loop, then return
`db.metas[first]` together with `first`.  When `first = len(db.metas)`
(query key greater than every `StartKey`, or empty index) the Go indexing
expression panics; that is modelled as `none`. -/
def lowerSearchMeta (metas : List chunkMeta) (key : Bytes) :
    Option (chunkMeta × Nat) :=
  let first := lowerLoop metas key metas.length 0 metas.length
  (metas.get? first).map (fun m => (m, first))

/-- The loop of Go's `sort.Search(n, f)`: binary search for the smallest
index in `[i, j)` at which `f` is true, assuming `f` is monotone
(false-then-true).  `fuel` bounds the iterations; `sortSearch` supplies
`n`, which suffices since `j - i` strictly decreases. -/
def sortSearchLoop (f : Nat → Bool) : Nat → Nat → Nat → Nat
  | 0, i, _ => i
  | fuel + 1, i, j =>
    if i < j then
      let h := (i + j) / 2
      if f h then sortSearchLoop f fuel i h
      else sortSearchLoop f fuel (h + 1) j
    else i

/-- Go's `sort.Search(n, f)`. -/
def sortSearch (n : Nat) (f : Nat → Bool) : Nat := sortSearchLoop f n 0 n

/-- Outcome of a `Get` call.  `errNoKey` models both `"no such key"` error
returns in `db.go` (the dead nil-metadata check and the in-segment miss);
`errStore` models the error return on a failed read/decode; `panic` models
a Go runtime panic (out-of-range index). -/
inductive GetResult where
  | panic
  | errNoKey
  | errStore
  | ok (v : Bytes)
deriving DecidableEq, Repr

/-- The in-segment search at the end of `Get` in `db.go`:
`sort.Search(len(KVs), func(i) { return Compare(KVs[i].Key, key) == 0 })`
followed by the out-of-range check.  Note the predicate tests *equality*,
which is not monotone, so `sort.Search`'s contract does not apply. -/
def searchIn (kvs : List kvPair) (key : Bytes) : GetResult :=
  let idx := sortSearch kvs.length
    (fun i => bytesCmp ((kvs.getD i default).Key) key = .eq)
  if kvs.length ≤ idx then .errNoKey
  else .ok ((kvs.getD idx default).Value)

/-- `db.file.ReadAt(buf, loc)` with `len(buf) = len`: the `len` bytes at
offset `loc`; a read past end-of-file leaves the remainder of the buffer
zeroed (the Go code tolerates the accompanying `io.EOF`). -/
def readAt (file : Bytes) (loc len : Nat) : Bytes :=
  let avail := (file.drop loc).take len
  avail ++ List.replicate (len - avail.length) 0

/-- The serving-phase state of `DB`: the metadata index, the heap of
decoded chunk objects (pointers are indices, allocation is `append`), the
LRU pool of `(segment id, chunk pointer)` entries (most recent first), and
the data file. -/
structure DBState where
  metas : List chunkMeta
  chunks : List chunkObj
  pool : List (Nat × Nat)
  file : Bytes
deriving DecidableEq, Repr

/-- The `OnEvicted` callback installed by `Init` in `db.go`:
`value.(*chunk).Meta = nil` — it clears the evicted *chunk object's*
back-pointer, not the metadata's `Chunk` reference. -/
def onEvicted (chunks : List chunkObj) (ptr : Nat) : List chunkObj :=
  match chunks.get? ptr with
  | some c => chunks.set ptr { c with Meta := none }
  | none => chunks

/-- `lru.Cache.Add` from the vendored `groupcache/lru` library (an external
collaborator; modelled from its documented behaviour): an existing key is
moved to the front with the new value; otherwise the entry is pushed to the
front and, if the capacity `maxEntries` is exceeded, the oldest entry is
removed, invoking the `OnEvicted` callback on it. -/
def lruAdd (maxEntries : Nat) (pool : List (Nat × Nat))
    (chunks : List chunkObj) (k ptr : Nat) :
    List (Nat × Nat) × List chunkObj :=
  if (pool.find? (fun e => e.1 = k)).isSome then
    ((k, ptr) :: pool.filter (fun e => e.1 ≠ k), chunks)
  else
    let pool' := (k, ptr) :: pool
    if maxEntries ≠ 0 ∧ maxEntries < pool'.length then
      match pool'.getLast? with
      | some (_, eptr) => (pool'.dropLast, onEvicted chunks eptr)
      | none => (pool', chunks)
    else (pool', chunks)

/-- `DB.Get` from `db.go`, with explicit state passing (the concurrency
primitives — the mutex and the `singleflight` group — are identities in
this single-caller model).  Returns the Go result, the updated state, and
whether the miss path (a disk read) was taken.  The boundary search panic
propagates; on a miss the chunk is decoded from the file, added to the LRU
pool (possibly evicting another chunk), and linked from its metadata. -/
def GetS (dec : Bytes → Option (List kvPair)) (db : DBState) (key : Bytes) :
    GetResult × DBState × Bool :=
  match lowerSearchMeta db.metas key with
  | none => (.panic, db, false)
  | some (meta, idx) =>
    match meta.Chunk with
    | some ptr =>
      match db.chunks.get? ptr with
      | some c => (searchIn c.KVs key, db, false)
      | none => (.panic, db, false)
    | none =>
      match dec (readAt db.file meta.StartLoc meta.Len) with
      | none => (.errStore, db, true)
      | some kvs =>
        let c : chunkObj := ⟨kvs, none⟩
        let ptr := db.chunks.length
        let (pool', chunks') := lruAdd MaxChunks db.pool (db.chunks ++ [c]) meta.ID ptr
        let metas' := db.metas.set idx { meta with Chunk := some ptr }
        (searchIn kvs key, ⟨metas', chunks', pool', db.file⟩, true)

/-- Run a sequence of `Get` calls, threading the state. -/
def runGets (dec : Bytes → Option (List kvPair)) (db : DBState) :
    List Bytes → DBState
  | [] => db
  | k :: ks => runGets dec (GetS dec db k).2.1 ks

/-- The records `Get` would search for a given metadata entry: the cached
chunk object if `Chunk` is set (a dangling pointer yields `none`, the Go
panic), otherwise the decode of the file bytes at `StartLoc`/`Len`. -/
def fetchedKVs (dec : Bytes → Option (List kvPair)) (db : DBState)
    (m : chunkMeta) : Option (List kvPair) :=
  match m.Chunk with
  | some ptr => (db.chunks.get? ptr).map (fun c => c.KVs)
  | none => dec (readAt db.file m.StartLoc m.Len)

/-- The cache-free denotation of `Get`: boundary search, decode from the
file, in-segment search.  `GetS` agrees with it on consistent states. -/
def pureGet (dec : Bytes → Option (List kvPair)) (file : Bytes)
    (metas : List chunkMeta) (key : Bytes) : GetResult :=
  match lowerSearchMeta metas key with
  | none => .panic
  | some (m, _) =>
    match dec (readAt file m.StartLoc m.Len) with
    | none => .errStore
    | some kvs => searchIn kvs key

/-- Cache consistency: every metadata entry whose `Chunk` pointer is set
points at a live chunk object that holds exactly the records the data file
decodes to for that entry. -/
def consistentB (dec : Bytes → Option (List kvPair)) (db : DBState) : Bool :=
  db.metas.all fun m =>
    match m.Chunk with
    | none => true
    | some ptr =>
      match db.chunks.get? ptr with
      | none => false
      | some c => decide (dec (readAt db.file m.StartLoc m.Len) = some c.KVs)

/-- A metadata entry with its `Chunk` pointer erased: the part of the index
that is immutable after `Build`. -/
def eraseChunk (m : chunkMeta) : chunkMeta := { m with Chunk := none }

/-- Executable stand-in serializer (the specification treats the on-disk
encoding as an implementation choice): a byte string is length-prefixed. -/
def encodeBytes (b : Bytes) : Bytes := b.length :: b

/-- Stand-in chunk serializer: record count, then length-prefixed keys and
values. -/
def encodeKVs (kvs : List kvPair) : Bytes :=
  kvs.length :: (kvs.map (fun p => encodeBytes p.Key ++ encodeBytes p.Value)).flatten

/-- Read one length-prefixed byte string. -/
def readBytesField (b : Bytes) : Option (Bytes × Bytes) :=
  match b with
  | [] => none
  | n :: rest =>
    if n ≤ rest.length then some (rest.take n, rest.drop n) else none

/-- Decode `n` records from the byte stream. -/
def decodePairs : Nat → Bytes → Option (List kvPair × Bytes)
  | 0, rest => some ([], rest)
  | n + 1, rest =>
    match readBytesField rest with
    | none => none
    | some (k, r1) =>
      match readBytesField r1 with
      | none => none
      | some (v, r2) =>
        match decodePairs n r2 with
        | none => none
        | some (ps, r3) => some (⟨k, v⟩ :: ps, r3)

/-- Stand-in chunk deserializer, inverse of `encodeKVs`. -/
def decodeKVs (b : Bytes) : Option (List kvPair) :=
  match b with
  | [] => none
  | n :: rest =>
    match decodePairs n rest with
    | some (ps, _) => some ps
    | none => none

/-- `DB.Init` from `db.go`, restricted to its observable outcome: the state
after a successful build — the sorted metadata index, an empty chunk heap
and LRU pool, and the data file (on a failed build all components are
empty). -/
def initState (enc : List kvPair → Bytes) (lines : List Bytes) : DBState :=
  ⟨(preprocess enc lines).metasD, [], [], (preprocess enc lines).fileD⟩

/-! ### Concrete inputs used in the evaluations below -/

/-- The input line `"<k_len> <key> <v_len> <value>"` for a one-byte key `k`
and one-byte value `v`: `1 k 1 v`. -/
def mkLine1 (k v : Nat) : Bytes := [49, 32, k, 32, 49, 32, v]

/-- Ten records with one-byte keys `a b c d e m n o p q` and value `x`.
With `MaxChunkSize = 10` the build packs them into two five-record
segments, starting at keys `a` and `m`. -/
def lines10 : List Bytes :=
  ((List.range 5).map (fun i => mkLine1 (97 + i) 120)) ++
  ((List.range 5).map (fun i => mkLine1 (109 + i) 120))

/-- The input line `2 a<b> 8 xxxxxxxx`: a two-byte key `[97, b]` and an
eight-byte value, so a single record already fills a segment. -/
def mkLine2 (b : Nat) : Bytes := [50, 32, 97, b, 32, 56, 32] ++ List.replicate 8 120

/-- Thirty-one single-record segments with ascending two-byte keys — one
more than the cache capacity `MaxChunks = 30`. -/
def lines31 : List Bytes := (List.range 31).map (fun i => mkLine2 (97 + i))

/-- The thirty-one segment keys of `lines31`, in ascending order. -/
def keys31 : List Bytes := (List.range 31).map (fun i => [97, 97 + i])

/-- The state after building from `lines31` and then issuing one `Get` per
segment in ascending key order: thirty-one cache insertions, so the
thirty-first evicts the least-recently-used entry (segment 0). -/
def db31 : DBState := runGets decodeKVs (initState encodeKVs lines31) keys31

/-- A five-field input line: `1 a 1 x x`. -/
def line5F : Bytes := [49, 32, 97, 32, 49, 32, 120, 32, 120]

/-- The database built from `lines10`. -/
def db10 : DBState := initState encodeKVs lines10

/-- The first metadata entry of `db10` (start key `a`). -/
def db10meta0 : chunkMeta := db10.metas.getD 0 default

/-- The records `Get` fetches for `db10meta0` (segment `a b c d e`). -/
def db10seg0 : List kvPair := (fetchedKVs decodeKVs db10 db10meta0).getD []

/-! ### Properties of the byte-string comparison -/

theorem bytesCmp_eq_iff : ∀ (a b : Bytes), bytesCmp a b = .eq ↔ a = b
  | [], [] => by simp [bytesCmp]
  | [], _ :: _ => by simp [bytesCmp]
  | _ :: _, [] => by simp [bytesCmp]
  | a :: as, b :: bs => by
    simp only [bytesCmp]
    rcases Nat.lt_trichotomy a b with h | h | h
    · simp [h, Nat.ne_of_lt h]
    · subst h
      simp [Nat.lt_irrefl, bytesCmp_eq_iff as bs]
    · simp [h, Nat.not_lt_of_lt h, (Nat.ne_of_lt h).symm]

theorem bytesCmp_gt_iff : ∀ (a b : Bytes), bytesCmp a b = .gt ↔ bytesCmp b a = .lt
  | [], [] => by simp [bytesCmp]
  | [], _ :: _ => by simp [bytesCmp]
  | _ :: _, [] => by simp [bytesCmp]
  | a :: as, b :: bs => by
    simp only [bytesCmp]
    rcases Nat.lt_trichotomy a b with h | h | h
    · simp [h, Nat.not_lt_of_lt h]
    · subst h
      simp [Nat.lt_irrefl, bytesCmp_gt_iff as bs]
    · simp [h, Nat.not_lt_of_lt h]

theorem bytesCmp_le_trans : ∀ (a b c : Bytes),
    bytesCmp a b ≠ .gt → bytesCmp b c ≠ .gt → bytesCmp a c ≠ .gt
  | [], _, c, _, _ => by cases c <;> simp [bytesCmp]
  | _ :: _, [], _, h1, _ => by simp [bytesCmp] at h1
  | _ :: _, _ :: _, [], _, h2 => by simp [bytesCmp] at h2
  | a :: as, b :: bs, c :: cs, h1, h2 => by
    simp only [bytesCmp] at h1 h2 ⊢
    rcases Nat.lt_trichotomy a b with hab | hab | hab
    · rcases Nat.lt_trichotomy b c with hbc | hbc | hbc
      · simp [Nat.lt_trans hab hbc]
      · subst hbc
        simp [hab]
      · rw [if_neg (by omega), if_pos hbc] at h2
        exact absurd rfl h2
    · subst hab
      rw [if_neg (Nat.lt_irrefl a), if_neg (Nat.lt_irrefl a)] at h1
      rcases Nat.lt_trichotomy a c with hac | hac | hac
      · simp [hac]
      · subst hac
        rw [if_neg (Nat.lt_irrefl a), if_neg (Nat.lt_irrefl a)] at h2 ⊢
        exact bytesCmp_le_trans as bs cs h1 h2
      · rw [if_neg (by omega), if_pos hac] at h2
        exact absurd rfl h2
    · rw [if_neg (by omega), if_pos hab] at h1
      exact absurd rfl h1

theorem bytesCmp_le_total (a b : Bytes) :
    bytesCmp a b ≠ .gt ∨ bytesCmp b a ≠ .gt := by
  rcases h : bytesCmp a b with _ | _ | _
  · exact .inl (by simp [h])
  · exact .inl (by simp [h])
  · exact .inr (by simp [(bytesCmp_gt_iff a b).mp h])

theorem bytesCmp_lt_of_le_of_ne {a b : Bytes}
    (h : bytesCmp a b ≠ .gt) (hne : a ≠ b) : bytesCmp a b = .lt := by
  rcases hc : bytesCmp a b with _ | _ | _
  · rfl
  · exact absurd ((bytesCmp_eq_iff a b).mp hc) hne
  · exact absurd hc h

instance : IsTrans kvPair keyLe :=
  ⟨fun p q r => bytesCmp_le_trans p.Key q.Key r.Key⟩

instance : IsTotal kvPair keyLe :=
  ⟨fun p q => bytesCmp_le_total p.Key q.Key⟩

instance : IsTrans chunkMeta metaLe :=
  ⟨fun m n o => bytesCmp_le_trans m.StartKey n.StartKey o.StartKey⟩

instance : IsTotal chunkMeta metaLe :=
  ⟨fun m n => bytesCmp_le_total m.StartKey n.StartKey⟩

/-! ### Structure of the parser -/

theorem parseOneChunk_ok_spec :
    ∀ (lines : List Bytes) (acc : List kvPair) (size ln : Nat)
      (recs : List kvPair) (eof : Bool) (rest : List Bytes),
    parseOneChunk lines acc size ln = .ok (recs, eof, rest) →
    ∃ consumed, lines = consumed ++ rest ∧
      recs = acc ++ consumed.map recordOf ∧
      (∀ l ∈ consumed, 4 ≤ (splitByte 32 l).length) ∧
      (eof = true → rest = []) ∧
      (eof = false → consumed ≠ [])
  | [], acc, size, ln, recs, eof, rest, h => by
    simp only [parseOneChunk, Except.ok.injEq, Prod.mk.injEq] at h
    obtain ⟨h1, h2, h3⟩ := h
    exact ⟨[], by simp [h3], by simp [h1], by simp, fun _ => h3.symm,
      fun hf => absurd h2.symm (by simp [hf])⟩
  | l :: ls, acc, size, ln, recs, eof, rest, h => by
    simp only [parseOneChunk] at h
    by_cases hlen : (splitByte 32 l).length < 4
    · rw [if_pos hlen] at h
      exact absurd h (by simp)
    · rw [if_neg hlen] at h
      by_cases hsz : MaxChunkSize ≤ size + ((splitByte 32 l).getD 1 []).length +
          ((splitByte 32 l).getD 3 []).length
      · rw [if_pos hsz] at h
        simp only [Except.ok.injEq, Prod.mk.injEq] at h
        obtain ⟨h1, h2, h3⟩ := h
        refine ⟨[l], by simp [h3], by rw [← h1]; simp [recordOf], ?_, fun hef => absurd h2 (by simp [hef]), fun _ => by simp⟩
        intro x hx
        rw [List.mem_singleton] at hx
        exact hx ▸ Nat.le_of_not_lt hlen
      · rw [if_neg hsz] at h
        obtain ⟨consumed, hc1, hc2, hc3, hc4, hc5⟩ :=
          parseOneChunk_ok_spec ls (acc ++ [⟨(splitByte 32 l).getD 1 [], (splitByte 32 l).getD 3 []⟩]) _ _ recs eof rest h
        refine ⟨l :: consumed, by simp [hc1], by rw [hc2]; simp [recordOf, List.append_assoc], ?_, hc4, fun _ => by simp⟩
        intro x hx
        rcases List.mem_cons.mp hx with hx | hx
        · exact hx ▸ Nat.le_of_not_lt hlen
        · exact hc3 x hx

theorem parseOneChunk_err_spec :
    ∀ (lines : List Bytes) (acc : List kvPair) (size ln : Nat) (e : ParseErr),
    parseOneChunk lines acc size ln = .error e →
    ∃ l ∈ lines, (splitByte 32 l).length < 4
  | [], _, _, _, _, h => absurd h (by simp [parseOneChunk])
  | l :: ls, acc, size, ln, e, h => by
    simp only [parseOneChunk] at h
    by_cases hlen : (splitByte 32 l).length < 4
    · exact ⟨l, List.mem_cons_self .., hlen⟩
    · rw [if_neg hlen] at h
      by_cases hsz : MaxChunkSize ≤ size + ((splitByte 32 l).getD 1 []).length +
          ((splitByte 32 l).getD 3 []).length
      · rw [if_pos hsz] at h
        exact absurd h (by simp)
      · rw [if_neg hsz] at h
        obtain ⟨x, hx, hbad⟩ := parseOneChunk_err_spec ls _ _ _ e h
        exact ⟨x, List.mem_cons_of_mem _ hx, hbad⟩

theorem parseOneChunk_rest_lt {lines : List Bytes} {acc : List kvPair}
    {size ln : Nat} {recs : List kvPair} {rest : List Bytes}
    (h : parseOneChunk lines acc size ln = .ok (recs, false, rest)) :
    rest.length < lines.length := by
  obtain ⟨consumed, hc1, -, -, -, hc5⟩ :=
    parseOneChunk_ok_spec lines acc size ln recs false rest h
  have hne := hc5 rfl
  rw [hc1, List.length_append]
  cases consumed with
  | nil => exact absurd rfl hne
  | cons _ _ => simp

theorem sortChunk_ne_nil {recs : List kvPair} (h : recs ≠ []) :
    sortChunk recs ≠ [] := by
  intro hnil
  have := List.length_insertionSort keyLe recs
  rw [sortChunk] at hnil
  rw [hnil] at this
  exact h (List.length_eq_zero.mp this.symm)

theorem preprocessLoop_ok_spec (enc : List kvPair → Bytes) :
    ∀ (fuel : Nat) (lines : List Bytes) (file : Bytes) (loc id : Nat)
      (fileO : Bytes) (segs : List (List kvPair)) (metas : List chunkMeta),
    lines.length < fuel →
    preprocessLoop enc fuel lines file loc id = .ok fileO segs metas →
    ∃ recss : List (List kvPair),
      segs = recss.map sortChunk ∧
      recss.flatten = lines.map recordOf ∧
      (∀ r ∈ recss, r ≠ []) ∧
      metas.map chunkMeta.StartKey = segs.map (fun s => (s.headD default).Key)
  | 0, lines, _, _, _, _, _, _, hfuel, _ => absurd hfuel (by omega)
  | fuel + 1, lines, file, loc, id, fileO, segs, metas, hfuel, h => by
    simp only [preprocessLoop] at h
    cases hp : parseOneChunk lines [] 0 0 with
    | error e =>
      rw [hp] at h
      exact absurd h (by simp)
    | ok res =>
      obtain ⟨recs0, eof, rest⟩ := res
      rw [hp] at h
      simp only at h
      obtain ⟨consumed, hc1, hc2, hc3, hc4, hc5⟩ :=
        parseOneChunk_ok_spec lines [] 0 0 recs0 eof rest hp
      rw [List.nil_append] at hc2
      by_cases hrec : recs0.length > 0
      · rw [if_pos hrec] at h
        have hne : recs0 ≠ [] := by
          intro hnil
          rw [hnil] at hrec
          simp at hrec
        obtain ⟨p, ps, hps⟩ := List.exists_cons_of_ne_nil (sortChunk_ne_nil hne)
        rw [hps] at h
        simp only [dumpOneChunk] at h
        cases eof with
        | true =>
          simp only [if_pos] at h
          simp only [BuildResult.ok.injEq] at h
          obtain ⟨-, hsegs, hmetas⟩ := h
          refine ⟨[recs0], ?_, ?_, ?_, ?_⟩
          · rw [← hsegs]
            simp [hps]
          · rw [hc1, hc4 rfl, List.append_nil]
            simp [hc2]
          · simp [hne]
          · rw [← hsegs, ← hmetas]
            simp
        | false =>
          rw [if_neg (by simp)] at h
          cases hrec2 : preprocessLoop enc fuel rest (file ++ enc (p :: ps))
              (file ++ enc (p :: ps)).length (id + 1) with
          | err e =>
            rw [hrec2] at h
            exact absurd h (by simp)
          | panic =>
            rw [hrec2] at h
            exact absurd h (by simp)
          | ok f3 s3 m3 =>
            rw [hrec2] at h
            simp only [BuildResult.ok.injEq] at h
            obtain ⟨-, hsegs, hmetas⟩ := h
            have hrest : rest.length < fuel := by
              have := parseOneChunk_rest_lt hp
              omega
            obtain ⟨recss, hr1, hr2, hr3, hr4⟩ :=
              preprocessLoop_ok_spec enc fuel rest _ _ _ f3 s3 m3 hrest hrec2
            refine ⟨recs0 :: recss, ?_, ?_, ?_, ?_⟩
            · rw [← hsegs, hr1]
              simp [hps]
            · rw [hc1]
              simp [hc2, hr2]
            · intro r hr
              rcases List.mem_cons.mp hr with hr | hr
              · exact hr ▸ hne
              · exact hr3 r hr
            · rw [← hsegs, ← hmetas, List.map_cons, List.map_cons, hr4]
              simp
      · rw [if_neg hrec] at h
        have hczero : consumed = [] := by
          have : recs0 = [] := by
            cases hr0 : recs0 with
            | nil => rfl
            | cons a as => rw [hr0] at hrec; simp at hrec
          rw [this] at hc2
          exact List.map_eq_nil_iff.mp hc2.symm
        cases eof with
        | true =>
          rw [if_pos rfl] at h
          simp only [BuildResult.ok.injEq] at h
          obtain ⟨-, hsegs, hmetas⟩ := h
          have hlines : lines = [] := by
            rw [hc1, hczero, hc4 rfl]
            rfl
          exact ⟨[], by simp [← hsegs], by simp [hlines], by simp, by simp [← hsegs, ← hmetas]⟩
        | false =>
          exact absurd hczero (hc5 rfl)

theorem preprocess_ok_spec (enc : List kvPair → Bytes) (lines : List Bytes)
    (fileO : Bytes) (segs : List (List kvPair)) (metasF : List chunkMeta)
    (h : preprocess enc lines = .ok fileO segs metasF) :
    ∃ metas0, metasF = sortMetas metas0 ∧
      ∃ recss : List (List kvPair),
        segs = recss.map sortChunk ∧
        recss.flatten = lines.map recordOf ∧
        (∀ r ∈ recss, r ≠ []) ∧
        metas0.map chunkMeta.StartKey = segs.map (fun s => (s.headD default).Key) := by
  rw [preprocess] at h
  cases hl : preprocessLoop enc (lines.length + 1) lines [] 0 0 with
  | err e => rw [hl] at h; exact absurd h (by simp)
  | panic => rw [hl] at h; exact absurd h (by simp)
  | ok f s m =>
    rw [hl] at h
    simp only [BuildResult.ok.injEq] at h
    obtain ⟨-, hsegs, hmetas⟩ := h
    obtain ⟨recss, hr1, hr2, hr3, hr4⟩ :=
      preprocessLoop_ok_spec enc (lines.length + 1) lines [] 0 0 f s m (by omega) hl
    exact ⟨m, hmetas.symm, recss, hsegs ▸ hr1, hr2, hr3, hsegs ▸ hr4⟩

theorem flatten_sortChunk_perm :
    ∀ recss : List (List kvPair),
    ((recss.map sortChunk).flatten).Perm recss.flatten
  | [] => .refl _
  | r :: rs => by
    simp only [List.map_cons, List.flatten_cons]
    exact (List.perm_insertionSort keyLe r).append (flatten_sortChunk_perm rs)

/-! ### Claim C6: partition completeness of the build -/

/-- Claim C6 (confirmed): whenever `preprocess` succeeds, the records of the
written segments, taken together, are a permutation of the records denoted
by the input lines — every input record lands in exactly one written
segment (with multiplicity), none is dropped (including the final record;
recall the model covers newline-terminated streams) and none is duplicated
across segment boundaries. -/
theorem C6_partition_completeness (enc : List kvPair → Bytes) (lines : List Bytes)
    (hok : (preprocess enc lines).isOk = true) :
    ((preprocess enc lines).segsD).flatten.Perm (lines.map recordOf) := by
  cases hv : preprocess enc lines with
  | err e => rw [hv] at hok; exact absurd hok (by simp [BuildResult.isOk])
  | panic => rw [hv] at hok; exact absurd hok (by simp [BuildResult.isOk])
  | ok f s m =>
    obtain ⟨-, -, recss, hr1, hr2, -, -⟩ := preprocess_ok_spec enc lines f s m hv
    simp only [BuildResult.segsD]
    rw [hr1, ← hr2]
    exact flatten_sortChunk_perm recss

/-- Claim C6 witness: the build from `lines10` succeeds and its two written
segments together hold exactly the ten input records. -/
theorem C6_witness :
    (preprocess encodeKVs lines10).isOk = true ∧
    ((preprocess encodeKVs lines10).segsD).flatten.Perm (lines10.map recordOf) :=
  ⟨by decide, C6_partition_completeness encodeKVs lines10 (by decide)⟩

theorem mem_of_forall₂_mem :
    ∀ {ks : List Bytes} {KS : List (List Bytes)},
    List.Forall₂ (· ∈ ·) ks KS → ∀ x ∈ ks, ∃ K ∈ KS, x ∈ K
  | _, _, .nil, x, hx => absurd hx (by simp)
  | _, _, .cons h hf, x, hx => by
    rcases List.mem_cons.mp hx with rfl | hx
    · exact ⟨_, List.mem_cons_self _ _, h⟩
    · obtain ⟨K, hK, hxK⟩ := mem_of_forall₂_mem hf x hx
      exact ⟨K, List.mem_cons_of_mem _ hK, hxK⟩

theorem nodup_of_forall₂_mem_disjoint :
    ∀ {ks : List Bytes} {KS : List (List Bytes)},
    List.Forall₂ (· ∈ ·) ks KS → KS.Pairwise List.Disjoint → ks.Nodup
  | _, _, .nil, _ => List.nodup_nil
  | _, _, .cons h hf, hd => by
    rw [List.nodup_cons]
    obtain ⟨hd1, hd2⟩ := List.pairwise_cons.mp hd
    refine ⟨?_, nodup_of_forall₂_mem_disjoint hf hd2⟩
    intro hmem
    obtain ⟨K, hK, hxK⟩ := mem_of_forall₂_mem hf _ hmem
    exact (hd1 K hK) h hxK

/-! ### Claim C5: sortedness after a successful build -/

/-- Claim C5 (confirmed): after a successful build on an input whose record
keys are pairwise distinct, the metadata index is strictly ascending by
`StartKey` (adjacent entries strictly increase), and within every written
segment the records are strictly ascending by key. -/
theorem C5_sortedness (enc : List kvPair → Bytes) (lines : List Bytes)
    (hok : (preprocess enc lines).isOk = true)
    (hnd : ((lines.map recordOf).map kvPair.Key).Nodup) :
    List.Chain' bytLt ((preprocess enc lines).metasD.map chunkMeta.StartKey) ∧
    ∀ seg ∈ (preprocess enc lines).segsD,
      List.Chain' bytLt (seg.map kvPair.Key) := by
  cases hv : preprocess enc lines with
  | err e => rw [hv] at hok; exact absurd hok (by simp [BuildResult.isOk])
  | panic => rw [hv] at hok; exact absurd hok (by simp [BuildResult.isOk])
  | ok f s m =>
    obtain ⟨metas0, hm, recss, hr1, hr2, hr3, hr4⟩ :=
      preprocess_ok_spec enc lines f s m hv
    simp only [BuildResult.metasD, BuildResult.segsD]
    rw [← hr2, List.map_flatten] at hnd
    have hEach : ∀ K ∈ recss.map (List.map kvPair.Key), K.Nodup :=
      (List.nodup_flatten.mp hnd).1
    have hDisj : (recss.map (List.map kvPair.Key)).Pairwise List.Disjoint :=
      (List.nodup_flatten.mp hnd).2
    constructor
    · have hsorted : List.Sorted metaLe (sortMetas metas0) :=
        List.sorted_insertionSort metaLe metas0
      have hperm : (sortMetas metas0).Perm metas0 :=
        List.perm_insertionSort metaLe metas0
      have hnodup0 : (metas0.map chunkMeta.StartKey).Nodup := by
        rw [hr4]
        apply nodup_of_forall₂_mem_disjoint _ hDisj
        rw [hr1, List.forall₂_map_left_iff, List.forall₂_map_left_iff,
          List.forall₂_map_right_iff, List.forall₂_same]
        intro r hr
        have hrne := hr3 r hr
        obtain ⟨p, ps, hps⟩ := List.exists_cons_of_ne_nil (sortChunk_ne_nil hrne)
        simp only [hps, List.headD_cons]
        have hp_mem : p ∈ sortChunk r := by
          rw [hps]
          exact List.mem_cons_self _ _
        exact List.mem_map_of_mem _
          ((List.perm_insertionSort keyLe r).mem_iff.mp hp_mem)
      have hnodupF : ((sortMetas metas0).map chunkMeta.StartKey).Nodup :=
        ((hperm.map chunkMeta.StartKey).nodup_iff).mpr hnodup0
      have hpleF : ((sortMetas metas0).map chunkMeta.StartKey).Pairwise
          (fun a b => bytesCmp a b ≠ .gt) := by
        rw [List.pairwise_map]
        exact hsorted
      rw [hm]
      exact ((hpleF.and hnodupF).imp
        (fun h => bytesCmp_lt_of_le_of_ne h.1 h.2)).chain'
    · intro seg hseg
      rw [hr1] at hseg
      obtain ⟨r, hr, rfl⟩ := List.mem_map.mp hseg
      have hple : ((sortChunk r).map kvPair.Key).Pairwise
          (fun a b => bytesCmp a b ≠ .gt) := by
        rw [List.pairwise_map]
        exact List.sorted_insertionSort keyLe r
      have hnd1 : ((sortChunk r).map kvPair.Key).Nodup :=
        (((List.perm_insertionSort keyLe r).map kvPair.Key).nodup_iff).mpr
          (hEach _ (List.mem_map_of_mem _ hr))
      exact ((hple.and hnd1).imp
        (fun h => bytesCmp_lt_of_le_of_ne h.1 h.2)).chain'

/-- Claim C5 witness: the keys of `lines10` are pairwise distinct, its build
succeeds, and both sortedness conclusions hold on the resulting index and
segments. -/
theorem C5_witness :
    (preprocess encodeKVs lines10).isOk = true ∧
    ((lines10.map recordOf).map kvPair.Key).Nodup ∧
    (List.Chain' bytLt ((preprocess encodeKVs lines10).metasD.map chunkMeta.StartKey) ∧
      ∀ seg ∈ (preprocess encodeKVs lines10).segsD,
        List.Chain' bytLt (seg.map kvPair.Key)) :=
  ⟨by decide, by decide, C5_sortedness encodeKVs lines10 (by decide) (by decide)⟩

/-! ### Claim C1: direction of the metadata boundary search -/

/-- Claim C1 (refuted, code bug): the boundary search is required to return
the *last* segment whose `StartKey` is `≤` the query key.  On the index
built from `lines10` the segments start at keys `a` and `m`; the query key
`b` (`[98]`) satisfies `a ≤ b < m`, so the required answer is the segment
starting at `a` (index 0).  `lowerSearchMeta` instead performs a plain
lower-bound search and returns the segment starting at `m` (index 1) — the
first segment whose `StartKey` is `≥` the key, exactly the off-by-one the
specification flags. -/
theorem C1_boundary_search_selects_later_segment :
    (preprocess encodeKVs lines10).metasD.map chunkMeta.StartKey = [[97], [109]] ∧
    bytesCmp [97] [98] = .lt ∧ bytesCmp [98] [109] = .lt ∧
    (lowerSearchMeta (preprocess encodeKVs lines10).metasD [98]).map
      (fun p => (p.1.StartKey, p.2)) = some ([109], 1) := by
  decide

/-! ### Claim C2: the in-segment search misses present keys -/

/-- Claim C2 (refuted, code bug): the in-segment search in `Get` runs
`sort.Search` with the non-monotone predicate "key equals target", which
the specification explicitly warns is not safe to binary-search on.  On the
database built from `lines10`, the key `a` (`[97]`) is the first record of
the fetched segment (the boundary search selects index 0 and the fetched
segment contains the record `(a, x)`), yet `Get` answers `KeyNotFound`. -/
theorem C2_segment_search_misses_present_key :
    (lowerSearchMeta db10.metas [97]).map (fun p => p.2) = some 0 ∧
    db10seg0.contains ⟨[97], [120]⟩ = true ∧
    (GetS decodeKVs db10 [97]).1 = GetResult.errNoKey := by
  decide

/-! ### Claim C3: a key below every `StartKey` -/

/-- Claim C3 counterexample: for the index built from `lines10` and the
query key `[96]` — strictly smaller than every segment's `StartKey` — the
boundary search does *not* report `NotFound`: it returns the first
segment's metadata (so `Get` goes on to fetch that segment, contrary to the
claim's "without fetching any segment"). -/
theorem C3_search_returns_first_segment_for_small_key :
    db10.metas.all (fun m => decide (bytesCmp [96] m.StartKey = .lt)) = true ∧
    (lowerSearchMeta db10.metas [96]).map (fun p => p.2) = some 0 := by
  decide

theorem getD_mem {α : Type} [Inhabited α] {l : List α} {i : Nat}
    (h : i < l.length) : l.getD i default ∈ l := by
  rw [List.getD_eq_getElem?_getD, List.getElem?_eq_getElem h, Option.getD_some]
  exact List.getElem_mem h

theorem lowerLoop_const_of_ge (metas : List chunkMeta) (key : Bytes)
    (hall : ∀ i, i < metas.length →
      bytesCmp ((metas.getD i default).StartKey) key ≠ .lt) :
    ∀ (fuel first leng : Nat), first + leng ≤ metas.length →
    lowerLoop metas key fuel first leng = first
  | 0, first, leng, _ => rfl
  | fuel + 1, first, leng, hle => by
    simp only [lowerLoop]
    by_cases h0 : leng = 0
    · rw [if_pos h0]
    · rw [if_neg h0]
      have hmid : first + leng / 2 < metas.length := by omega
      rw [if_neg (hall _ hmid)]
      exact lowerLoop_const_of_ge metas key hall fuel first (leng / 2) (by omega)

theorem lowerSearchMeta_of_key_below (metas : List chunkMeta) (key : Bytes)
    (m₀ : chunkMeta) (h₀ : metas.get? 0 = some m₀)
    (hall : ∀ m ∈ metas, bytesCmp key m.StartKey = .lt) :
    lowerSearchMeta metas key = some (m₀, 0) := by
  have hall' : ∀ i, i < metas.length →
      bytesCmp ((metas.getD i default).StartKey) key ≠ .lt := by
    intro i hi
    rw [(bytesCmp_gt_iff _ _).mpr (hall _ (getD_mem hi))]
    simp
  simp only [lowerSearchMeta]
  rw [lowerLoop_const_of_ge metas key hall' metas.length 0 metas.length (by omega), h₀]
  rfl

theorem lowerSearchMeta_some {metas : List chunkMeta} {key : Bytes}
    {m : chunkMeta} {i : Nat}
    (h : lowerSearchMeta metas key = some (m, i)) :
    metas.get? i = some m := by
  simp only [lowerSearchMeta] at h
  obtain ⟨a, hg, heq⟩ := Option.map_eq_some'.mp h
  simp only [Prod.mk.injEq] at heq
  obtain ⟨rfl, rfl⟩ := heq
  exact hg

theorem sortSearchLoop_all_false (f : Nat → Bool) (j : Nat)
    (hf : ∀ k, k < j → f k = false) :
    ∀ (fuel i : Nat), i ≤ j → j - i ≤ fuel → sortSearchLoop f fuel i j = j
  | 0, i, hij, hfe => by
    simp only [sortSearchLoop]
    omega
  | fuel + 1, i, hij, hfe => by
    simp only [sortSearchLoop]
    by_cases hlt : i < j
    · rw [if_pos hlt]
      have hh : (i + j) / 2 < j := by omega
      rw [hf _ hh]
      simp only [Bool.false_eq_true, if_false]
      exact sortSearchLoop_all_false f j hf fuel ((i + j) / 2 + 1) (by omega) (by omega)
    · rw [if_neg hlt]
      omega

theorem searchIn_not_found {kvs : List kvPair} {key : Bytes}
    (h : ∀ p ∈ kvs, bytesCmp p.Key key ≠ .eq) :
    searchIn kvs key = .errNoKey := by
  simp only [searchIn]
  rw [sortSearch, sortSearchLoop_all_false _ kvs.length
    (fun k hk => decide_eq_false_iff_not.mpr (h _ (getD_mem hk))) kvs.length 0
    (by omega) (by omega)]
  simp

/-- Claim C3 as amended: for a query key strictly smaller than every
segment's `StartKey`, the boundary search does not report `NotFound` but
returns the *first* segment's metadata at index 0 (the Go nil-metadata
check in `Get` is unreachable); `Get` then searches that fetched segment
and — since the key also precedes every record key stored in it — fails
with `KeyNotFound`. -/
theorem C3_amended_small_key_not_found (dec : Bytes → Option (List kvPair))
    (db : DBState) (key : Bytes) (m₀ : chunkMeta) (kvs₀ : List kvPair)
    (h₀ : db.metas.get? 0 = some m₀)
    (hall : ∀ m ∈ db.metas, bytesCmp key m.StartKey = .lt)
    (hfetch : fetchedKVs dec db m₀ = some kvs₀)
    (hbelow : ∀ p ∈ kvs₀, bytesCmp key p.Key = .lt) :
    lowerSearchMeta db.metas key = some (m₀, 0) ∧
    (GetS dec db key).1 = GetResult.errNoKey := by
  have hls := lowerSearchMeta_of_key_below db.metas key m₀ h₀ hall
  refine ⟨hls, ?_⟩
  have hnf : ∀ p ∈ kvs₀, bytesCmp p.Key key ≠ .eq := by
    intro p hp
    rw [(bytesCmp_gt_iff _ _).mpr (hbelow p hp)]
    simp
  simp only [GetS, hls]
  cases hch : m₀.Chunk with
  | some ptr =>
    simp only [fetchedKVs, hch] at hfetch
    obtain ⟨c, hc, hckvs⟩ := Option.map_eq_some'.mp hfetch
    simp only [hc]
    rw [hckvs]
    exact searchIn_not_found hnf
  | none =>
    simp only [fetchedKVs, hch] at hfetch
    simp only [hfetch]
    exact searchIn_not_found hnf

/-- Claim C3 witness: on the database built from `lines10` with the query
key `[96]` (below the start keys `a` and `m`), the amended claim's
hypotheses hold concretely and the search returns segment 0 while `Get`
fails with `KeyNotFound`. -/
theorem C3_amended_witness :
    (db10.metas.get? 0 = some db10meta0 ∧
      fetchedKVs decodeKVs db10 db10meta0 = some db10seg0) ∧
    lowerSearchMeta db10.metas [96] = some (db10meta0, 0) ∧
    (GetS decodeKVs db10 [96]).1 = GetResult.errNoKey :=
  ⟨⟨by decide, by decide⟩,
    C3_amended_small_key_not_found decodeKVs db10 [96] db10meta0 db10seg0
      (by decide) (by decide) (by decide) (by decide)⟩

/-! ### Claim C4: eviction clears the wrong pointer -/

set_option maxRecDepth 200000 in
/-- Claim C4 (refuted, code bug): the `OnEvicted` callback installed by
`Init` runs `value.(*chunk).Meta = nil` — it clears the evicted chunk
object's back-pointer instead of the metadata's `loadedSegment` reference.
After building thirty-one single-record segments from `lines31` and
fetching each once in key order (`db31`), the thirty-first insertion evicts
segment 0 from the LRU pool (the pool holds the thirty entries for
segments 1–30), yet segment 0's metadata still points at the evicted chunk,
and a subsequent `Get` for its key is served from that chunk without any
disk read — the opposite of the claimed reload. -/
theorem C4_eviction_leaves_metadata_pointing_at_evicted_chunk :
    (db31.pool.length = 30 ∧
      db31.pool.all (fun e => decide (e.1 ≠ 0)) = true) ∧
    (db31.metas.getD 0 default).Chunk = some 0 ∧
    (GetS decodeKVs db31 [97, 97]).2.2 = false ∧
    (GetS decodeKVs db31 [97, 97]).1 = .ok (List.replicate 8 120) := by
  decide

theorem preprocessLoop_err_bad (enc : List kvPair → Bytes) :
    ∀ (fuel : Nat) (lines : List Bytes) (file : Bytes) (loc id : Nat) (e : ParseErr),
    preprocessLoop enc fuel lines file loc id = .err e →
    ∃ l ∈ lines, (splitByte 32 l).length < 4
  | 0, _, _, _, _, _, h => absurd h (by simp [preprocessLoop])
  | fuel + 1, lines, file, loc, id, e, h => by
    simp only [preprocessLoop] at h
    cases hp : parseOneChunk lines [] 0 0 with
    | error e0 =>
      exact parseOneChunk_err_spec lines [] 0 0 e0 hp
    | ok res =>
      obtain ⟨recs0, eof, rest⟩ := res
      rw [hp] at h
      simp only at h
      obtain ⟨consumed, hc1, hc2, hc3, hc4, hc5⟩ :=
        parseOneChunk_ok_spec lines [] 0 0 recs0 eof rest hp
      by_cases hrec : recs0.length > 0
      · rw [if_pos hrec] at h
        have hne : recs0 ≠ [] := by
          intro hnil
          rw [hnil] at hrec
          simp at hrec
        obtain ⟨p, ps, hps⟩ := List.exists_cons_of_ne_nil (sortChunk_ne_nil hne)
        rw [hps] at h
        simp only [dumpOneChunk] at h
        cases eof with
        | true =>
          simp only [if_pos] at h
          exact absurd h (by simp)
        | false =>
          rw [if_neg (by simp)] at h
          cases hrec2 : preprocessLoop enc fuel rest (file ++ enc (p :: ps))
              (file ++ enc (p :: ps)).length (id + 1) with
          | err e2 =>
            obtain ⟨l, hl, hbad⟩ := preprocessLoop_err_bad enc fuel rest _ _ _ e2 hrec2
            exact ⟨l, by rw [hc1]; exact List.mem_append_right _ hl, hbad⟩
          | panic =>
            rw [hrec2] at h
            exact absurd h (by simp)
          | ok f3 s3 m3 =>
            rw [hrec2] at h
            exact absurd h (by simp)
      · rw [if_neg hrec] at h
        cases eof with
        | true =>
          rw [if_pos rfl] at h
          exact absurd h (by simp)
        | false =>
          rw [if_neg (by simp)] at h
          obtain ⟨l, hl, hbad⟩ := preprocessLoop_err_bad enc fuel rest _ _ _ e h
          exact ⟨l, by rw [hc1]; exact List.mem_append_right _ hl, hbad⟩

theorem preprocessLoop_err_of_bad (enc : List kvPair → Bytes) :
    ∀ (fuel : Nat) (lines : List Bytes) (file : Bytes) (loc id : Nat),
    lines.length < fuel →
    (∃ l ∈ lines, (splitByte 32 l).length < 4) →
    ∃ e, preprocessLoop enc fuel lines file loc id = .err e
  | 0, lines, _, _, _, hfuel, _ => absurd hfuel (by omega)
  | fuel + 1, lines, file, loc, id, hfuel, ⟨l0, hl0, hbad⟩ => by
    simp only [preprocessLoop]
    cases hp : parseOneChunk lines [] 0 0 with
    | error e0 => exact ⟨e0, rfl⟩
    | ok res =>
      obtain ⟨recs0, eof, rest⟩ := res
      simp only
      obtain ⟨consumed, hc1, hc2, hc3, hc4, hc5⟩ :=
        parseOneChunk_ok_spec lines [] 0 0 recs0 eof rest hp
      have hbadrest : l0 ∈ rest := by
        rw [hc1] at hl0
        rcases List.mem_append.mp hl0 with hin | hin
        · have := hc3 l0 hin
          omega
        · exact hin
      have heof : eof = false := by
        cases eof with
        | false => rfl
        | true =>
          rw [hc4 rfl] at hbadrest
          exact absurd hbadrest (by simp)
      subst heof
      have hrest : rest.length < fuel := by
        have := parseOneChunk_rest_lt hp
        omega
      by_cases hrec : recs0.length > 0
      · rw [if_pos hrec]
        have hne : recs0 ≠ [] := by
          intro hnil
          rw [hnil] at hrec
          simp at hrec
        obtain ⟨p, ps, hps⟩ := List.exists_cons_of_ne_nil (sortChunk_ne_nil hne)
        rw [hps]
        simp only [dumpOneChunk]
        rw [if_neg (by simp)]
        obtain ⟨e2, he2⟩ :=
          preprocessLoop_err_of_bad enc fuel rest (file ++ enc (p :: ps))
            (file ++ enc (p :: ps)).length (id + 1) hrest ⟨l0, hbadrest, hbad⟩
        rw [he2]
        exact ⟨e2, rfl⟩
      · rw [if_neg hrec, if_neg (by simp)]
        exact preprocessLoop_err_of_bad enc fuel rest file loc (id + 1) hrest
          ⟨l0, hbadrest, hbad⟩

/-! ### Claim C9: determinism of repeated lookups -/

theorem mem_of_get?_eq_some {α : Type} {l : List α} {i : Nat} {a : α}
    (h : l.get? i = some a) : a ∈ l := by
  rw [List.get?_eq_getElem?] at h
  obtain ⟨hlt, rfl⟩ := List.getElem?_eq_some_iff.mp h
  exact List.getElem_mem hlt

theorem consistentB_spec {dec : Bytes → Option (List kvPair)} {db : DBState}
    (h : consistentB dec db = true) :
    ∀ m ∈ db.metas, ∀ ptr, m.Chunk = some ptr →
    ∃ c, db.chunks.get? ptr = some c ∧
      dec (readAt db.file m.StartLoc m.Len) = some c.KVs := by
  intro m hm ptr hptr
  have hall := List.all_eq_true.mp h m hm
  simp only [hptr] at hall
  cases hc : db.chunks.get? ptr with
  | none =>
    simp only [hc] at hall
    exact absurd hall (by simp)
  | some c =>
    simp only [hc, decide_eq_true_eq] at hall
    exact ⟨c, rfl, hall⟩

theorem GetS_eq_pureGet (dec : Bytes → Option (List kvPair)) (db : DBState)
    (key : Bytes) (h : consistentB dec db = true) :
    (GetS dec db key).1 = pureGet dec db.file db.metas key := by
  cases hls : lowerSearchMeta db.metas key with
  | none => simp only [GetS, pureGet, hls]
  | some mi =>
    obtain ⟨m, idx⟩ := mi
    have hmem : m ∈ db.metas := mem_of_get?_eq_some (lowerSearchMeta_some hls)
    simp only [GetS, pureGet, hls]
    cases hch : m.Chunk with
    | some ptr =>
      obtain ⟨c, hc, hdec⟩ := consistentB_spec h m hmem ptr hch
      simp only [hc, hdec]
    | none =>
      cases hdec : dec (readAt db.file m.StartLoc m.Len) with
      | none => simp only [hdec]
      | some kvs => simp only [hdec]

theorem onEvicted_kvs (cs : List chunkObj) (p q : Nat) :
    ((onEvicted cs p).get? q).map chunkObj.KVs = (cs.get? q).map chunkObj.KVs := by
  cases hc : cs.get? p with
  | none => simp only [onEvicted, hc]
  | some c =>
    simp only [onEvicted, hc]
    rw [List.get?_eq_getElem?, List.get?_eq_getElem?, List.getElem?_set]
    by_cases hpq : p = q
    · subst hpq
      rw [List.get?_eq_getElem?] at hc
      have hlt : p < cs.length := (List.getElem?_eq_some_iff.mp hc).1
      rw [if_pos rfl, if_pos hlt, hc]
      rfl
    · rw [if_neg hpq]

theorem lruAdd_kvs (max : Nat) (pool : List (Nat × Nat)) (cs : List chunkObj)
    (k ptr q : Nat) :
    (((lruAdd max pool cs k ptr).2).get? q).map chunkObj.KVs =
    (cs.get? q).map chunkObj.KVs := by
  cases hf : pool.find? (fun e => e.1 = k) with
  | some e => simp only [lruAdd, hf, Option.isSome_some, if_true]
  | none =>
    simp only [lruAdd, hf, Option.isSome_none, Bool.false_eq_true, if_false]
    by_cases h2 : max ≠ 0 ∧ max < ((k, ptr) :: pool).length
    · rw [if_pos h2]
      cases hl : ((k, ptr) :: pool).getLast? with
      | none => simp only [hl]
      | some e =>
        obtain ⟨ek, eptr⟩ := e
        simp only [hl]
        exact onEvicted_kvs cs eptr q
    · rw [if_neg h2]

theorem set_self_of_getElem? {α : Type} :
    ∀ (l : List α) (i : Nat) (a : α), l[i]? = some a → l.set i a = l
  | [], _, _, h => by simp at h
  | x :: xs, 0, a, h => by
    simp only [List.getElem?_cons_zero, Option.some.injEq] at h
    simp [List.set, h]
  | x :: xs, i + 1, a, h => by
    simp only [List.getElem?_cons_succ] at h
    simp [List.set, set_self_of_getElem? xs i a h]

theorem GetS_preserves (dec : Bytes → Option (List kvPair)) (db : DBState)
    (key : Bytes) (h : consistentB dec db = true) :
    consistentB dec (GetS dec db key).2.1 = true ∧
    (GetS dec db key).2.1.file = db.file ∧
    (GetS dec db key).2.1.metas.map eraseChunk = db.metas.map eraseChunk := by
  cases hls : lowerSearchMeta db.metas key with
  | none =>
    have hst : (GetS dec db key).2.1 = db := by
      simp [GetS, hls]
    rw [hst]
    exact ⟨h, rfl, rfl⟩
  | some mi =>
    obtain ⟨m, idx⟩ := mi
    have hidx : db.metas.get? idx = some m := lowerSearchMeta_some hls
    cases hch : m.Chunk with
    | some ptr =>
      have hst : (GetS dec db key).2.1 = db := by
        simp only [GetS, hls, hch]
        cases db.chunks.get? ptr <;> rfl
      rw [hst]
      exact ⟨h, rfl, rfl⟩
    | none =>
      cases hdec : dec (readAt db.file m.StartLoc m.Len) with
      | none =>
        have hst : (GetS dec db key).2.1 = db := by
          simp [GetS, hls, hch, hdec]
        rw [hst]
        exact ⟨h, rfl, rfl⟩
      | some kvs =>
        have hst : (GetS dec db key).2.1 =
            ⟨db.metas.set idx { m with Chunk := some db.chunks.length },
              (lruAdd MaxChunks db.pool (db.chunks ++ [⟨kvs, none⟩])
                m.ID db.chunks.length).2,
              (lruAdd MaxChunks db.pool (db.chunks ++ [⟨kvs, none⟩])
                m.ID db.chunks.length).1,
              db.file⟩ := by
          simp [GetS, hls, hch, hdec]
        rw [hst]
        refine ⟨?_, rfl, ?_⟩
        · rw [consistentB, List.all_eq_true]
          intro m2 hm2
          simp only at hm2
          rcases List.mem_or_eq_of_mem_set hm2 with hold | rfl
          · cases hch2 : m2.Chunk with
            | none => simp only [hch2]
            | some p2 =>
              obtain ⟨c2, hc2, hdec2⟩ := consistentB_spec h m2 hold p2 hch2
              have hkvs2 :
                  (((lruAdd MaxChunks db.pool (db.chunks ++ [⟨kvs, none⟩])
                      m.ID db.chunks.length).2).get? p2).map chunkObj.KVs =
                    some c2.KVs := by
                rw [lruAdd_kvs]
                have hlt : p2 < db.chunks.length := by
                  rw [List.get?_eq_getElem?] at hc2
                  exact (List.getElem?_eq_some_iff.mp hc2).1
                rw [List.get?_eq_getElem?, List.getElem?_append_left hlt,
                  ← List.get?_eq_getElem?, hc2]
                rfl
              obtain ⟨c3, hc3, hkvs3⟩ := Option.map_eq_some'.mp hkvs2
              simp only [hch2, hc3, decide_eq_true_eq, hdec2, hkvs3]
          · have hkvsL :
                (((lruAdd MaxChunks db.pool (db.chunks ++ [⟨kvs, none⟩])
                    m.ID db.chunks.length).2).get? db.chunks.length).map chunkObj.KVs =
                  some kvs := by
              rw [lruAdd_kvs, List.get?_eq_getElem?, List.getElem?_concat_length]
              rfl
            obtain ⟨c3, hc3, hkvs3⟩ := Option.map_eq_some'.mp hkvsL
            simp only [hc3, decide_eq_true_eq, hdec, hkvs3]
        · simp only
          rw [List.map_set]
          have hg : (db.metas.map eraseChunk)[idx]? = some (eraseChunk m) := by
            rw [List.getElem?_map, ← List.get?_eq_getElem?, hidx]
            rfl
          exact set_self_of_getElem? _ idx _ hg

theorem lowerLoop_congr {metas₁ metas₂ : List chunkMeta} (key : Bytes)
    (hsk : ∀ i, (metas₁.getD i default).StartKey = (metas₂.getD i default).StartKey) :
    ∀ (fuel first leng : Nat),
    lowerLoop metas₁ key fuel first leng = lowerLoop metas₂ key fuel first leng
  | 0, first, leng => rfl
  | fuel + 1, first, leng => by
    simp only [lowerLoop]
    by_cases h0 : leng = 0
    · rw [if_pos h0, if_pos h0]
    · rw [if_neg h0, if_neg h0, hsk (first + leng / 2)]
      by_cases hcmp :
          bytesCmp ((metas₂.getD (first + leng / 2) default).StartKey) key = .lt
      · rw [if_pos hcmp, if_pos hcmp]
        exact lowerLoop_congr key hsk fuel (first + leng / 2 + 1) (leng - leng / 2 - 1)
      · rw [if_neg hcmp, if_neg hcmp]
        exact lowerLoop_congr key hsk fuel first (leng / 2)

theorem pureGet_congr (dec : Bytes → Option (List kvPair)) (file : Bytes)
    {metas₁ metas₂ : List chunkMeta} (key : Bytes)
    (h : metas₁.map eraseChunk = metas₂.map eraseChunk) :
    pureGet dec file metas₁ key = pureGet dec file metas₂ key := by
  have hlen : metas₁.length = metas₂.length := by
    have := congrArg List.length h
    simpa using this
  have hget : ∀ i : Nat, (metas₁[i]?).map eraseChunk = (metas₂[i]?).map eraseChunk := by
    intro i
    rw [← List.getElem?_map, ← List.getElem?_map, h]
  have hsk : ∀ i, (metas₁.getD i default).StartKey = (metas₂.getD i default).StartKey := by
    intro i
    rw [List.getD_eq_getElem?_getD, List.getD_eq_getElem?_getD]
    have hi := hget i
    cases h1 : metas₁[i]? with
    | none =>
      rw [h1] at hi
      cases h2 : metas₂[i]? with
      | none => rfl
      | some b =>
        rw [h2] at hi
        simp at hi
    | some a =>
      rw [h1] at hi
      cases h2 : metas₂[i]? with
      | none =>
        rw [h2] at hi
        simp at hi
      | some b =>
        rw [h2] at hi
        simp only [Option.map_some', Option.some.injEq] at hi
        rw [Option.getD_some, Option.getD_some]
        have hk := congrArg chunkMeta.StartKey hi
        exact hk
  have hfirst : lowerLoop metas₁ key metas₁.length 0 metas₁.length =
      lowerLoop metas₂ key metas₂.length 0 metas₂.length := by
    rw [hlen]
    exact lowerLoop_congr key hsk _ 0 _
  simp only [pureGet, lowerSearchMeta]
  rw [hfirst, List.get?_eq_getElem?, List.get?_eq_getElem?]
  have hgF := hget (lowerLoop metas₂ key metas₂.length 0 metas₂.length)
  cases h1 : metas₁[lowerLoop metas₂ key metas₂.length 0 metas₂.length]? with
  | none =>
    rw [h1] at hgF
    cases h2 : metas₂[lowerLoop metas₂ key metas₂.length 0 metas₂.length]? with
    | none => rfl
    | some b =>
      rw [h2] at hgF
      simp at hgF
  | some a =>
    rw [h1] at hgF
    cases h2 : metas₂[lowerLoop metas₂ key metas₂.length 0 metas₂.length]? with
    | none =>
      rw [h2] at hgF
      simp at hgF
    | some b =>
      rw [h2] at hgF
      simp only [Option.map_some', Option.some.injEq] at hgF
      have hloc' := congrArg chunkMeta.StartLoc hgF
      have hlenm' := congrArg chunkMeta.Len hgF
      have hloc : a.StartLoc = b.StartLoc := hloc'
      have hlenm : a.Len = b.Len := hlenm'
      simp only [Option.map_some']
      rw [hloc, hlenm]

/-- Claim C9 (confirmed): starting from any cache-consistent state (every
cached segment equals what the data file decodes to for its metadata —
which holds for the freshly built state, all pointers `nil`, and is
preserved by every `Get`), the result of `Get` for a key is unchanged by
any sequence of intervening `Get` calls: repeated sequential calls return
the same value on success and the same `KeyNotFound` outcome on absence,
regardless of which segments happen to be cached in between. -/
theorem C9_repeated_get_deterministic (dec : Bytes → Option (List kvPair))
    (db : DBState) (key : Bytes) (ks : List Bytes)
    (h : consistentB dec db = true) :
    (GetS dec (runGets dec db ks) key).1 = (GetS dec db key).1 := by
  induction ks generalizing db with
  | nil => rfl
  | cons k ks ih =>
    obtain ⟨hcons, hfile, hmetas⟩ := GetS_preserves dec db k h
    calc (GetS dec (runGets dec db (k :: ks)) key).1
        = (GetS dec (GetS dec db k).2.1 key).1 := ih _ hcons
      _ = pureGet dec (GetS dec db k).2.1.file (GetS dec db k).2.1.metas key :=
          GetS_eq_pureGet dec _ key hcons
      _ = pureGet dec db.file db.metas key := by
          rw [hfile]
          exact pureGet_congr dec _ key hmetas
      _ = (GetS dec db key).1 := (GetS_eq_pureGet dec db key h).symm

/-- Claim C9 witness: the freshly built `db10` is cache-consistent, and a
`Get` for key `b` returns the same outcome after an intervening `Get` for
key `a` (which populates the cache) as on the fresh state. -/
theorem C9_witness :
    consistentB decodeKVs db10 = true ∧
    (GetS decodeKVs (runGets decodeKVs db10 [[97]]) [98]).1 =
      (GetS decodeKVs db10 [98]).1 :=
  ⟨by decide,
    C9_repeated_get_deterministic decodeKVs db10 [98] [[97]] (by decide)⟩

/-! ### Claim C7: which field counts are rejected -/

/-- Claim C7 counterexample: the five-field line `"1 a 1 x x"` is accepted
by the build — `parseOneChunk` only rejects lines with *fewer* than four
fields (`len(res) < 4`), so a line that splits into five or more fields is
not reported as malformed, contrary to the claim's "exactly four". -/
theorem C7_five_field_line_accepted :
    (splitByte 32 line5F).length = 5 ∧
    (preprocess encodeKVs [line5F]).isErr = false ∧
    (preprocess encodeKVs [line5F]).segsD = [[⟨[97], [120]⟩]] := by
  decide

/-- Claim C7 as amended: the build fails with a `MalformedRecord` error
(carrying the offending field count and a line number counted from the
start of the current segment) if and only if some input line splits into
*fewer* than four whitespace-separated fields; lines with four or more
fields are accepted, their second and fourth fields becoming the record. -/
theorem C7_amended_malformed_iff (enc : List kvPair → Bytes) (lines : List Bytes) :
    (preprocess enc lines).isErr = true ↔
    ∃ l ∈ lines, (splitByte 32 l).length < 4 := by
  constructor
  · intro h
    cases hv : preprocessLoop enc (lines.length + 1) lines [] 0 0 with
    | err e => exact preprocessLoop_err_bad enc (lines.length + 1) lines [] 0 0 e hv
    | panic =>
      rw [preprocess, hv] at h
      exact absurd h (by simp [BuildResult.isErr])
    | ok f s m =>
      rw [preprocess, hv] at h
      exact absurd h (by simp [BuildResult.isErr])
  · intro hbad
    obtain ⟨e, he⟩ :=
      preprocessLoop_err_of_bad enc (lines.length + 1) lines [] 0 0 (by omega) hbad
    rw [preprocess, he]
    rfl

/-! ### Claim C8: the writer on an empty segment -/

/-- Claim C8 counterexample: invoked with zero records, the writer does not
fail with an `EmptySegment` error — it first appends the encoded empty
segment to the data file and then panics on `tmpchunk.KVs[0]` (modelled as
`none`), so it neither returns an error nor leaves the file unchanged. -/
theorem C8_empty_segment_panics :
    (dumpOneChunk encodeKVs [] [] 0 0).2 = none ∧
    (dumpOneChunk encodeKVs [] [] 0 0).1 = [0] := by
  decide

/-- Claim C8 as amended: on zero records `dumpOneChunk` appends the encoded
empty segment and then panics with an out-of-range access, for every
serializer, file, cursor position and id; it never produces metadata or an
`EmptySegment` error (`preprocess` guards by only invoking it on non-empty
segments). -/
theorem C8_amended_empty_segment_behaviour (enc : List kvPair → Bytes)
    (file : Bytes) (loc id : Nat) :
    (dumpOneChunk enc [] file loc id).2 = none ∧
    (dumpOneChunk enc [] file loc id).1 = file ++ enc [] :=
  ⟨rfl, rfl⟩

/-! ### Claim C10: the out-of-bounds index access in the boundary search -/

/-- Claim C10 (refuted, code bug): `db.metas[first]` is *not* always within
bounds.  On the database built from `lines10`, the key `z` (`[122]`) is
strictly greater than every segment's `StartKey`, so the lower-bound loop
returns `first = len(db.metas)` and the access panics (modelled as
`GetResult.panic`); likewise `Get` on an empty metadata index panics at
`db.metas[0]`.  Neither case returns an error — the nil-metadata error
return in `Get` is unreachable. -/
theorem C10_get_panics_past_last_start_key :
    db10.metas.all (fun m => decide (bytesCmp m.StartKey [122] = .lt)) = true ∧
    (GetS decodeKVs db10 [122]).1 = GetResult.panic ∧
    (GetS decodeKVs ⟨[], [], [], []⟩ [97]).1 = GetResult.panic := by
  decide

end kvdb


